import Mathlib

/-!
# Verification of the Where-Winds-Meet MIDI player playback engine

Shallow embedding of the playback engine of this repository
(`src-tauri/src/midi.rs` and `src-tauri/src/state.rs`) and proofs about it.

Modelling conventions:
* Rust `u8`/`u64`/`usize` values are `Nat`; `i32`/`i8` values are `Int`.
* Rust `f64` arithmetic is modelled exactly over `ℚ`; the cast `as u64`
  (truncation toward zero, saturating at 0 for negative values) is
  `ratToU64`, i.e. `Int.toNat ∘ Int.floor`.
* Rust `%` on `i32` is truncated remainder, embedded as `Int.tmod`;
  Rust `/` on `i32` is truncated division, embedded as `Int.tdiv`.
* `HashMap<K, V>` is modelled as `K → Option V`.
* The two `while` loops of `normalize_into_range` are embedded with an
  explicit iteration-count fuel; `normUp_eq`/`normDown_eq` certify that the
  fuel is large enough, i.e. that the functions satisfy the loops' unfolding
  equations.
* File I/O and the external `midly` parser are outside the program text, so
  the loader is modelled from the raw track data onward, and the state-level
  `load_midi` is parameterized by the loader's result.
-/

namespace WWM

/-- `enum EventType` from `midi.rs`. -/
inductive EventType
  | NoteOn
  | NoteOff
deriving DecidableEq

/-- `struct TimedEvent` from `midi.rs`. -/
structure TimedEvent where
  time_ms : ℕ
  event_type : EventType
  note : ℕ
deriving DecidableEq

/-- `enum NoteMode` from `midi.rs`. -/
inductive NoteMode
  | Closest
  | Quantize
  | TransposeOnly
  | Pentatonic
  | Chromatic
  | Raw
deriving DecidableEq

/-- `impl From<u8> for NoteMode` from `midi.rs`: the selector byte decoder. -/
def NoteMode.fromU8 (value : ℕ) : NoteMode :=
  match value with
  | 0 => NoteMode.Closest
  | 1 => NoteMode.Quantize
  | 2 => NoteMode.TransposeOnly
  | 3 => NoteMode.Pentatonic
  | 4 => NoteMode.Chromatic
  | 5 => NoteMode.Raw
  | _ => NoteMode.Closest

/-- `struct MidiData` from `midi.rs` (`duration: f64` modelled as `ℚ`). -/
structure MidiData where
  events : List TimedEvent
  duration : ℚ
  transpose : ℤ
deriving DecidableEq

/-- `const LOW_KEYS` from `midi.rs`. -/
def LOW_KEYS : List String := ["z", "x", "c", "v", "b", "n", "m"]

/-- `const MID_KEYS` from `midi.rs`. -/
def MID_KEYS : List String := ["a", "s", "d", "f", "g", "h", "j"]

/-- `const HIGH_KEYS` from `midi.rs`. -/
def HIGH_KEYS : List String := ["q", "w", "e", "r", "t", "y", "u"]

/-- The concatenation `[LOW_KEYS, MID_KEYS, HIGH_KEYS].concat()` used by
`note_to_key`, `note_to_key_quantize` and `note_to_key_raw`. -/
def all_keys : List String := LOW_KEYS ++ MID_KEYS ++ HIGH_KEYS

/-- `const SCALE_INTERVALS` from `midi.rs`. -/
def SCALE_INTERVALS : List ℤ := [0, 2, 4, 5, 7, 9, 11]

/-- `const ROOT_NOTE` from `midi.rs` (C4). -/
def ROOT_NOTE : ℤ := 60

/-- `get_instrument_notes` from `midi.rs`: the 21 playable pitches, low
octave then mid octave then high octave. -/
def get_instrument_notes : List ℤ :=
  SCALE_INTERVALS.map (fun interval => ROOT_NOTE - 12 + interval) ++
  SCALE_INTERVALS.map (fun interval => ROOT_NOTE + interval) ++
  SCALE_INTERVALS.map (fun interval => ROOT_NOTE + 12 + interval)

/-- Fuel-indexed embedding of the loop `while normalized < lo { normalized += 12 }`
from `normalize_into_range` in `midi.rs`. -/
def normUpAux : ℕ → ℤ → ℤ → ℤ
  | 0, _, n => n
  | fuel + 1, lo, n => if n < lo then normUpAux fuel lo (n + 12) else n

/-- The loop `while normalized < lo { normalized += 12 }`; the fuel
`(lo - n).toNat` dominates the iteration count, as certified by `normUp_eq`. -/
def normUp (lo n : ℤ) : ℤ := normUpAux (lo - n).toNat lo n

/-- Fuel-indexed embedding of the loop `while normalized > hi { normalized -= 12 }`
from `normalize_into_range` in `midi.rs`. -/
def normDownAux : ℕ → ℤ → ℤ → ℤ
  | 0, _, n => n
  | fuel + 1, hi, n => if n > hi then normDownAux fuel hi (n - 12) else n

/-- The loop `while normalized > hi { normalized -= 12 }`; the fuel
`(n - hi).toNat` dominates the iteration count, as certified by `normDown_eq`. -/
def normDown (hi n : ℤ) : ℤ := normDownAux (n - hi).toNat hi n

/-- `normalize_into_range` from `midi.rs`: fold a pitch into
`[instrument_notes[0], instrument_notes[last]]` by steps of 12. -/
def normalize_into_range (note : ℤ) : ℤ :=
  let lo := get_instrument_notes.headD 0
  let hi := get_instrument_notes.getLastD 0
  normDown hi (normUp lo note)

/-- The fold in `note_to_key` from `midi.rs`: index of the first instrument
note at minimal absolute distance from `target`, scanning with strict
improvement from the initial candidate `(0, |notes[0] - target|)`. -/
def closestIdx (notes : List ℤ) (target : ℤ) : ℕ :=
  (notes.enum.foldl
    (fun best p => if |p.2 - target| < best.2 then (p.1, |p.2 - target|) else best)
    (0, |notes.headD 0 - target|)).1

/-- `note_to_key` from `midi.rs` (mode `Closest`): normalize into range, then
pick the nearest of the 21 instrument pitches.  The debug print counter is a
side channel with no effect on the result and is not modelled. -/
def note_to_key (note transpose : ℤ) : String :=
  let target := normalize_into_range (note + transpose)
  all_keys.getD (closestIdx get_instrument_notes target) ""

/-- The fold in `note_to_key_quantize` from `midi.rs`: index of the first
instrument note at minimal absolute distance, scanning with strict
improvement from the initial candidate `(0, i32::MAX)`. -/
def closestIdxFromMax (notes : List ℤ) (target : ℤ) : ℕ :=
  (notes.enum.foldl
    (fun best p => if |p.2 - target| < best.2 then (p.1, |p.2 - target|) else best)
    (0, 2147483647)).1

/-- `note_to_key_quantize` from `midi.rs` (mode `Quantize`).  The source's
`if best_dist > 1 { best_idx = best_idx; }` is a self-assignment with no
effect and is embedded as nothing. -/
def note_to_key_quantize (note transpose : ℤ) : String :=
  let target := note + transpose
  let lo := get_instrument_notes.headD 0
  let hi := get_instrument_notes.getLastD 0
  let normalized := normDown hi (normUp lo target)
  all_keys.getD (closestIdxFromMax get_instrument_notes normalized) ""

/-- `note_to_key_transpose` from `midi.rs` (mode `TransposeOnly`).  Rust `%`
and `/` on `i32` are `Int.tmod` and `Int.tdiv`; `clamp(0, 2)` is
`min (max _ 0) 2`. -/
def note_to_key_transpose (note transpose : ℤ) : String :=
  let target := note + transpose
  let semitone := ((target - ROOT_NOTE).tmod 12 + 12).tmod 12
  let octave_offset := (target - ROOT_NOTE).tdiv 12
  let octave := min (max (1 + octave_offset) 0) 2
  let key_idx := ((semitone * 7).tdiv 12).toNat
  match octave with
  | 0 => LOW_KEYS.getD key_idx ""
  | 1 => MID_KEYS.getD key_idx ""
  | _ => HIGH_KEYS.getD key_idx ""

/-- `PENTA_INTERVALS` from `note_to_key_pentatonic` in `midi.rs`. -/
def PENTA_INTERVALS : List ℤ := [0, 2, 4, 7, 9]

/-- `PENTA_KEY_IDX` from `note_to_key_pentatonic` in `midi.rs`. -/
def PENTA_KEY_IDX : List ℕ := [0, 1, 2, 4, 5]

/-- The fold in `note_to_key_pentatonic` from `midi.rs`: index of the first
pentatonic interval minimizing circular distance to `semitone`. -/
def closestPentaIdx (semitone : ℤ) : ℕ :=
  (PENTA_INTERVALS.enum.foldl
    (fun best p =>
      let dist := min (min |p.2 - semitone| |p.2 - semitone + 12|) |p.2 - semitone - 12|
      if dist < best.2 then (p.1, dist) else best)
    (0, 2147483647)).1

/-- `note_to_key_pentatonic` from `midi.rs` (mode `Pentatonic`). -/
def note_to_key_pentatonic (note transpose : ℤ) : String :=
  let target := note + transpose
  let lo := get_instrument_notes.headD 0
  let hi := get_instrument_notes.getLastD 0
  let normalized := normDown hi (normUp lo target)
  let semitone := ((normalized - ROOT_NOTE).tmod 12 + 12).tmod 12
  let octave : ℕ := if normalized < ROOT_NOTE then 0 else if normalized < ROOT_NOTE + 12 then 1 else 2
  let key_idx := PENTA_KEY_IDX.getD (closestPentaIdx semitone) 0
  match octave with
  | 0 => LOW_KEYS.getD key_idx ""
  | 1 => MID_KEYS.getD key_idx ""
  | _ => HIGH_KEYS.getD key_idx ""

/-- The 12-entry lookup table in `note_to_key_chromatic` from `midi.rs`. -/
def chromaticSlot (semitone_in_octave : ℤ) : ℕ :=
  match semitone_in_octave with
  | 0 => 0
  | 1 => 0
  | 2 => 1
  | 3 => 2
  | 4 => 2
  | 5 => 3
  | 6 => 3
  | 7 => 4
  | 8 => 4
  | 9 => 5
  | 10 => 6
  | 11 => 6
  | _ => 0

/-- `note_to_key_chromatic` from `midi.rs` (mode `Chromatic`). -/
def note_to_key_chromatic (note transpose : ℤ) : String :=
  let target := note + transpose
  let lo := get_instrument_notes.headD 0
  let hi := get_instrument_notes.getLastD 0
  let normalized := normDown hi (normUp lo target)
  let semitone_in_octave := ((normalized - ROOT_NOTE).tmod 12 + 12).tmod 12
  let octave : ℕ := if normalized < ROOT_NOTE then 0 else if normalized < ROOT_NOTE + 12 then 1 else 2
  let key_idx := chromaticSlot semitone_in_octave
  match octave with
  | 0 => LOW_KEYS.getD key_idx ""
  | 1 => MID_KEYS.getD key_idx ""
  | _ => HIGH_KEYS.getD key_idx ""

/-- `note_to_key_raw` from `midi.rs` (mode `Raw`): direct
`((note % 21) + 21) % 21` indexing into the 21-key layout. -/
def note_to_key_raw (note : ℤ) : String :=
  let key_idx := (note.tmod 21 + 21).tmod 21
  all_keys.getD key_idx.toNat ""

/-- The inner loop of `detect_best_transpose` from `midi.rs`: minimal absolute
distance from `normalized` to any instrument note, starting from `i32::MAX`. -/
def minDistToInstrument (normalized : ℤ) : ℤ :=
  get_instrument_notes.foldl
    (fun min_distance inst_note =>
      if |inst_note - normalized| < min_distance then |inst_note - normalized| else min_distance)
    2147483647

/-- The per-candidate score of `detect_best_transpose` from `midi.rs`: sum of
`minDistToInstrument` over the NoteOn events, at shift `transpose`. -/
def transposeScore (events : List TimedEvent) (transpose : ℤ) : ℤ :=
  events.foldl
    (fun score event =>
      match event.event_type with
      | EventType.NoteOn =>
          score + minDistToInstrument (normalize_into_range ((event.note : ℤ) + transpose))
      | EventType.NoteOff => score)
    0

/-- `detect_best_transpose` from `midi.rs`: scan shifts `-12..=12` in order,
keeping the first shift that strictly improves the best score, starting from
`(0, i32::MAX)`. -/
def detect_best_transpose (events : List TimedEvent) : ℤ :=
  ((List.range 25).foldl
    (fun best i =>
      let transpose : ℤ := (i : ℤ) - 12
      let score := transposeScore events transpose
      if score < best.2 then (transpose, score) else best)
    ((0 : ℤ), (2147483647 : ℤ))).1

/-! ## The tempo-corrected loader (`load_midi` in `midi.rs`)

The external `midly` parser is out of scope; the loader is embedded from the
raw per-track event data onward: each track is a list of
(delta-ticks, message kind) pairs. -/

/-- The kinds of raw track events the loader inspects. -/
inductive RawKind
  | midiNoteOn (key vel : ℕ)
  | midiNoteOff (key : ℕ)
  | metaTempo (tempo : ℚ)
  | otherEvent
deriving DecidableEq

/-- One raw track event: delta ticks plus kind. -/
structure RawTrackEvent where
  delta : ℕ
  kind : RawKind
deriving DecidableEq

/-- First pass of `load_midi` over one track: accumulate the tick position and
collect `(absolute tick, tempo)` for every tempo meta-event. -/
def trackTempos : ℕ → List RawTrackEvent → List (ℕ × ℚ)
  | _, [] => []
  | track_time_ticks, e :: rest =>
      let t := track_time_ticks + e.delta
      match e.kind with
      | RawKind.metaTempo tempo => (t, tempo) :: trackTempos t rest
      | _ => trackTempos t rest

/-- First pass of `load_midi`: tempo changes from all tracks, then
`sort_by_key(|(time, _)| *time)` (a stable sort, hence `mergeSort`). -/
def collect_tempo_changes (tracks : List (List RawTrackEvent)) : List (ℕ × ℚ) :=
  ((tracks.map (trackTempos 0)).flatten).mergeSort (fun a b => decide (a.1 ≤ b.1))

/-- Model of the Rust `f64 as u64` cast for the magnitudes arising here:
truncation toward zero, saturating at 0 for negative values. -/
def ratToU64 (q : ℚ) : ℕ := (⌊q⌋).toNat

/-- The exact-arithmetic accumulator of the `ticks_to_ms` closure in
`load_midi`: walk the sorted tempo-change list, breaking at the first change
at tick `≥ ticks`; accumulate
`delta_ticks / ticks_per_quarter * current_tempo / 1000` per segment. -/
def ticks_to_ms_aux (tpq : ℚ) : List (ℕ × ℚ) → ℕ → ℚ → ℚ → ℕ → ℚ
  | [], last_tick, current_tempo, acc, ticks =>
      acc + ((ticks - last_tick : ℕ) : ℚ) / tpq * current_tempo / 1000
  | (change_tick, new_tempo) :: rest, last_tick, current_tempo, acc, ticks =>
      if change_tick ≥ ticks then
        acc + ((ticks - last_tick : ℕ) : ℚ) / tpq * current_tempo / 1000
      else
        ticks_to_ms_aux tpq rest change_tick new_tempo
          (acc + ((change_tick - last_tick : ℕ) : ℚ) / tpq * current_tempo / 1000) ticks

/-- The `ticks_to_ms` closure in `load_midi`: start at tick 0 with the default
tempo 500000 µs/quarter and accumulator 0, then cast the result to `u64`. -/
def ticks_to_ms (tempo_changes : List (ℕ × ℚ)) (tpq : ℚ) (ticks : ℕ) : ℕ :=
  ratToU64 (ticks_to_ms_aux tpq tempo_changes 0 500000 0 ticks)

/-- The `match message` in the second pass of `load_midi`: `NoteOn` with
velocity 0 is pushed as a `NoteOff`; non-note messages push nothing. -/
def midiEventOf (time_ms : ℕ) : RawKind → Option TimedEvent
  | RawKind.midiNoteOn key vel =>
      if vel > 0 then some ⟨time_ms, EventType.NoteOn, key⟩
      else some ⟨time_ms, EventType.NoteOff, key⟩
  | RawKind.midiNoteOff key => some ⟨time_ms, EventType.NoteOff, key⟩
  | RawKind.metaTempo _ => none
  | RawKind.otherEvent => none

/-- Second pass of `load_midi` over one track: accumulate ticks, convert to
milliseconds, and push the note events. -/
def trackEvents (toMs : ℕ → ℕ) : ℕ → List RawTrackEvent → List TimedEvent
  | _, [] => []
  | track_time_ticks, e :: rest =>
      let t := track_time_ticks + e.delta
      let time_ms := toMs t
      match midiEventOf time_ms e.kind with
      | some ev => ev :: trackEvents toMs t rest
      | none => trackEvents toMs t rest

/-- The event list built by `load_midi` in `midi.rs`: all tracks' note events
merged, then `sort_by_key(|e| e.time_ms)` (stable, hence `mergeSort`). -/
def load_midi_events (tracks : List (List RawTrackEvent)) (tpq : ℚ) : List TimedEvent :=
  let tempo_changes := collect_tempo_changes tracks
  ((tracks.map (trackEvents (ticks_to_ms tempo_changes tpq) 0)).flatten).mergeSort
    (fun a b => decide (a.time_ms ≤ b.time_ms))

/-! ## The playback pass (`play_midi` in `midi.rs`)

One uninterrupted pass of the event loop: stop/pause polling, sleeping and the
progress thread are wall-clock concerns with no effect on which key actions a
completed pass issues.  The live `note_mode`/`octave_shift` atomics are read
fresh at each processed event; they are modelled by an oracle giving the mode
and octave shift observed at the n-th processed event. -/

/-- A call into the keyboard capability (`keyboard::key_down` / `key_up`). -/
inductive KeyAction
  | keyDown (key : String)
  | keyUp (key : String)
deriving DecidableEq

/-- The per-pass mutable state of `play_midi`: the two hash maps. -/
structure PlayState where
  note_to_pressed_key : ℕ → Option String
  key_active_count : String → Option ℤ

/-- The empty maps at the start of a pass. -/
def initPlayState : PlayState := ⟨fun _ => none, fun _ => none⟩

/-- The `let key = match current_mode` dispatch in `play_midi`:
`total_transpose = midi_data.transpose + shift_semitones`, and `Raw` ignores
the auto-transpose, using only the manual shift. -/
def selectKey (mode : NoteMode) (transpose shift_semitones : ℤ) (note : ℕ) : String :=
  let total_transpose := transpose + shift_semitones
  match mode with
  | NoteMode.Closest => note_to_key (note : ℤ) total_transpose
  | NoteMode.Quantize => note_to_key_quantize (note : ℤ) total_transpose
  | NoteMode.TransposeOnly => note_to_key_transpose (note : ℤ) total_transpose
  | NoteMode.Pentatonic => note_to_key_pentatonic (note : ℤ) total_transpose
  | NoteMode.Chromatic => note_to_key_chromatic (note : ℤ) total_transpose
  | NoteMode.Raw => note_to_key_raw ((note : ℤ) + shift_semitones)

/-- The `match event.event_type` body of `play_midi`: process one event,
returning the new state and the key actions issued.
`NoteOn`: remember the chosen key for this note, read the reference count
(`entry(..).or_insert(0)`), press only on `count == 0`, then increment.
`NoteOff`: remove and use the remembered key (never a fresh mapper call);
decrement only a positive count and release only on the transition to 0. -/
def stepEvent (mode : NoteMode) (transpose shift_semitones : ℤ) (st : PlayState)
    (e : TimedEvent) : PlayState × List KeyAction :=
  let key := selectKey mode transpose shift_semitones e.note
  match e.event_type with
  | EventType.NoteOn =>
      let count := (st.key_active_count key).getD 0
      let acts := if count = 0 then [KeyAction.keyDown key] else []
      (⟨fun n => if n = e.note then some key else st.note_to_pressed_key n,
        fun k => if k = key then some (count + 1) else st.key_active_count k⟩, acts)
  | EventType.NoteOff =>
      match st.note_to_pressed_key e.note with
      | none => (st, [])
      | some pressed_key =>
          let np := fun n => if n = e.note then none else st.note_to_pressed_key n
          match st.key_active_count pressed_key with
          | none => (⟨np, st.key_active_count⟩, [])
          | some count =>
              if 0 < count then
                (⟨np, fun k => if k = pressed_key then some (count - 1) else st.key_active_count k⟩,
                 if count - 1 = 0 then [KeyAction.keyUp pressed_key] else [])
              else (⟨np, st.key_active_count⟩, [])

/-- The event loop of one pass of `play_midi`: skip events before the seek
offset (`event.time_ms < offset_ms`), process the rest in order.  `oracle n`
is the `(note_mode, octave_shift)` pair read for the n-th processed event;
`shift_semitones = octave_shift * 12`. -/
def playEvents (oracle : ℕ → NoteMode × ℤ) (transpose : ℤ) (offset_ms : ℕ) :
    ℕ → PlayState → List TimedEvent → PlayState × List KeyAction
  | _, st, [] => (st, [])
  | idx, st, e :: rest =>
      if e.time_ms < offset_ms then
        playEvents oracle transpose offset_ms idx st rest
      else
        let p := stepEvent (oracle idx).1 transpose ((oracle idx).2 * 12) st e
        let q := playEvents oracle transpose offset_ms (idx + 1) p.1 rest
        (q.1, p.2 ++ q.2)

/-- Physical effect of one key action on the keyboard (which keys have had
`keyDown` issued without a matching `keyUp`). -/
def applyAction (pressed : String → Bool) : KeyAction → String → Bool
  | KeyAction.keyDown key => fun x => if x = key then true else pressed x
  | KeyAction.keyUp key => fun x => if x = key then false else pressed x

/-- Physical effect of a sequence of key actions. -/
def applyActions (pressed : String → Bool) (acts : List KeyAction) : String → Bool :=
  acts.foldl applyAction pressed

/-- The C1 invariant: a physical key is down iff its reference count in
`key_active_count` is positive. -/
def KeyInv (st : PlayState) (pressed : String → Bool) : Prop :=
  ∀ k, pressed k = true ↔ ∃ c, st.key_active_count k = some c ∧ 0 < c

/-! ## The transport state (`state.rs`)

`AppState` fields, with `f64` as `ℚ`, `Option<Instant>` reduced to whether an
instant is stored (its value is wall-clock data), and the atomics as plain
fields (each transition is modelled as a pure state transform). -/

/-- `struct AppState` from `state.rs`. -/
structure AppStateModel where
  is_playing : Bool
  is_paused : Bool
  loop_mode : Bool
  note_mode : ℕ
  octave_shift : ℤ
  current_position : ℚ
  total_duration : ℚ
  current_file : Option String
  playback_start : Bool
  midi_data : Option MidiData
  seek_offset : ℚ
deriving DecidableEq

/-- `AppState::stop_playback` from `state.rs`: clear the playing/paused flags,
zero the current position, drop the start instant.  The trailing 100 ms sleep
is wall-clock behavior with no effect on the state fields. -/
def stop_playback (st : AppStateModel) : AppStateModel :=
  { st with
    is_playing := false
    is_paused := false
    current_position := 0
    playback_start := false }

/-- `AppState::load_midi` from `state.rs`, parameterized by the result of
`crate::midi::load_midi` (file I/O): on success replace duration, file and
score; on failure propagate the error via `?` before any write. -/
def state_load_midi (loader : String → Except String MidiData) (st : AppStateModel)
    (path : String) : Except String Unit × AppStateModel :=
  match loader path with
  | Except.error e => (Except.error e, st)
  | Except.ok midi_data =>
      (Except.ok (),
       { st with
         total_duration := midi_data.duration
         current_file := some path
         midi_data := some midi_data })

/-! ## Auxiliary definitions used only to state the claims -/

/-- The C2 input: NoteOn events with pitches 60, 62, 64, 65, 67. -/
def scaleRunEvents : List TimedEvent :=
  [⟨0, EventType.NoteOn, 60⟩, ⟨0, EventType.NoteOn, 62⟩, ⟨0, EventType.NoteOn, 64⟩,
   ⟨0, EventType.NoteOn, 65⟩, ⟨0, EventType.NoteOn, 67⟩]

/-- The TransposeOnly mapping as claim C6 words it (spec side, for comparison
with `note_to_key_transpose`): column `floor(semitone*7/12)` with
`semitone = (pitch+shift-root) mod 12` (mathematical mod), octave row
`floor((pitch+shift-root)/12)` (floor division, `Int./`) clamped to [0,2]. -/
def claimed_transpose_key (pitch shift : ℤ) : String :=
  let d := pitch + shift - ROOT_NOTE
  let semitone := d % 12
  let row := min (max (d / 12) 0) 2
  let col := (semitone * 7 / 12).toNat
  ([LOW_KEYS, MID_KEYS, HIGH_KEYS].getD row.toNat []).getD col ""

/-- The TransposeOnly mapping the code actually computes, in closed form:
same column as C6 claims, but the octave row is
`clamp(1 + tdiv(pitch+shift-root, 12), 0, 2)` with division truncated toward
zero (Rust `/`), not `clamp(floor((pitch+shift-root)/12), 0, 2)`. -/
def corrected_transpose_key (pitch shift : ℤ) : String :=
  let d := pitch + shift - ROOT_NOTE
  let semitone := d % 12
  let row := min (max (1 + d.tdiv 12) 0) 2
  let col := (semitone * 7 / 12).toNat
  ([LOW_KEYS, MID_KEYS, HIGH_KEYS].getD row.toNat []).getD col ""

/-- Whether a raw track event is a NoteOn message with positive velocity. -/
def isNoteOnPos (e : RawTrackEvent) : Bool :=
  match e.kind with
  | RawKind.midiNoteOn _ vel => decide (0 < vel)
  | _ => false

/-- Whether a raw track event is a NoteOff message. -/
def isNoteOffMsg (e : RawTrackEvent) : Bool :=
  match e.kind with
  | RawKind.midiNoteOff _ => true
  | _ => false

/-- A one-track input with a single matched NoteOn/NoteOff pair, used to
instantiate C5. -/
def pairTracks : List (List RawTrackEvent) :=
  [[⟨0, RawKind.midiNoteOn 60 100⟩, ⟨10, RawKind.midiNoteOff 60⟩]]

/-! ## Certification of the fuel-indexed while loops -/

/-- `normUpAux` is fuel-irrelevant above the bound `(lo - n).toNat`. -/
theorem normUpAux_congr : ∀ (f g : ℕ) (lo n : ℤ), (lo - n).toNat ≤ f → (lo - n).toNat ≤ g →
    normUpAux f lo n = normUpAux g lo n := by
  intro f
  induction f with
  | zero =>
    intro g lo n hf hg
    have hnl : ¬ n < lo := by omega
    cases g with
    | zero => rfl
    | succ g => simp [normUpAux, hnl]
  | succ f ih =>
    intro g lo n hf hg
    cases g with
    | zero =>
      have hnl : ¬ n < lo := by omega
      simp [normUpAux, hnl]
    | succ g =>
      by_cases h : n < lo
      · simp only [normUpAux, if_pos h]
        exact ih g lo (n + 12) (by omega) (by omega)
      · simp only [normUpAux, if_neg h]

/-- `normUp` satisfies the unfolding equation of the source loop
`while normalized < lo { normalized += 12 }`: the fuel is large enough. -/
theorem normUp_eq (lo n : ℤ) : normUp lo n = if n < lo then normUp lo (n + 12) else n := by
  by_cases h : n < lo
  · rw [if_pos h]
    unfold normUp
    have h1 : (lo - n).toNat = ((lo - n).toNat - 1) + 1 := by omega
    rw [h1]
    simp only [normUpAux, if_pos h]
    exact normUpAux_congr ((lo - n).toNat - 1) (lo - (n + 12)).toNat lo (n + 12)
      (by omega) (by omega)
  · rw [if_neg h]
    unfold normUp
    have h0 : (lo - n).toNat = 0 := by omega
    rw [h0]
    rfl

/-- `normDownAux` is fuel-irrelevant above the bound `(n - hi).toNat`. -/
theorem normDownAux_congr : ∀ (f g : ℕ) (hi n : ℤ), (n - hi).toNat ≤ f → (n - hi).toNat ≤ g →
    normDownAux f hi n = normDownAux g hi n := by
  intro f
  induction f with
  | zero =>
    intro g hi n hf hg
    have hnl : ¬ n > hi := by omega
    cases g with
    | zero => rfl
    | succ g => simp [normDownAux, hnl]
  | succ f ih =>
    intro g hi n hf hg
    cases g with
    | zero =>
      have hnl : ¬ n > hi := by omega
      simp [normDownAux, hnl]
    | succ g =>
      by_cases h : n > hi
      · simp only [normDownAux, if_pos h]
        exact ih g hi (n - 12) (by omega) (by omega)
      · simp only [normDownAux, if_neg h]

/-- `normDown` satisfies the unfolding equation of the source loop
`while normalized > hi { normalized -= 12 }`: the fuel is large enough. -/
theorem normDown_eq (hi n : ℤ) : normDown hi n = if n > hi then normDown hi (n - 12) else n := by
  by_cases h : n > hi
  · rw [if_pos h]
    unfold normDown
    have h1 : (n - hi).toNat = ((n - hi).toNat - 1) + 1 := by omega
    rw [h1]
    simp only [normDownAux, if_pos h]
    exact normDownAux_congr ((n - hi).toNat - 1) ((n - 12) - hi).toNat hi (n - 12)
      (by omega) (by omega)
  · rw [if_neg h]
    unfold normDown
    have h0 : (n - hi).toNat = 0 := by omega
    rw [h0]
    rfl

/-! ## Truncated remainder (Rust `%`) versus mathematical mod -/

/-- For a positive modulus the truncated remainder exceeds `-b`. -/
theorem tmod_gt_neg (a : ℤ) {b : ℤ} (hb : 0 < b) : -b < a.tmod b := by
  cases a with
  | ofNat m =>
    have h := Int.tmod_nonneg b (show (0 : ℤ) ≤ Int.ofNat m from Int.ofNat_nonneg m)
    omega
  | negSucc m =>
    obtain ⟨n, rfl⟩ := Int.eq_succ_of_zero_lt hb
    show -(((n : ℤ)) + 1) < -(((m + 1) % (n + 1) : ℕ) : ℤ)
    have h : (m + 1) % (n + 1) < n + 1 := Nat.mod_lt (m + 1) (by omega)
    omega

/-- The Rust idiom `((a % m) + m) % m` (with `%` the truncated remainder)
computes the mathematical (Euclidean) mod. -/
theorem tmod_add_cancel (a m : ℤ) (hm : 0 < m) : (a.tmod m + m).tmod m = a % m := by
  have h1 : a.tmod m < m := Int.tmod_lt_of_pos a hm
  have h2 : -m < a.tmod m := tmod_gt_neg a hm
  rw [Int.tmod_eq_emod (by omega) (by omega)]
  rw [Int.tmod_def a m]
  have h3 : a - m * a.tdiv m + m = a + m * (1 - a.tdiv m) := by ring
  rw [h3, Int.add_mul_emod_self_left]

/-! ## Claim C10: totality of the mode selector decoding -/

/-- C10: `NoteMode::from` is total on selector bytes, and every value outside
the documented range 0..5 (in particular every `v >= 6`) decodes to
`Closest` rather than failing. -/
theorem noteMode_fromU8_total (v : ℕ) :
    (∃ m : NoteMode, NoteMode.fromU8 v = m) ∧
    (6 ≤ v → NoteMode.fromU8 v = NoteMode.Closest) := by
  refine ⟨⟨NoteMode.fromU8 v, rfl⟩, ?_⟩
  intro h
  match v, h with
  | 0, h => exact absurd h (by decide)
  | 1, h => exact absurd h (by decide)
  | 2, h => exact absurd h (by decide)
  | 3, h => exact absurd h (by decide)
  | 4, h => exact absurd h (by decide)
  | 5, h => exact absurd h (by decide)
  | n + 6, _ => rfl

/-- Witness for C10 at the concrete out-of-range selector 6. -/
theorem noteMode_fromU8_total_witness :
    6 ≤ 6 ∧ NoteMode.fromU8 6 = NoteMode.Closest :=
  ⟨by decide, (noteMode_fromU8_total 6).2 (by decide)⟩

/-! ## Claim C9: periodicity of the Raw-mode key function -/

/-- C9: the Raw-mode key function satisfies `rawKey 21 = rawKey 0` and
`rawKey (-1) = rawKey 20`, and is periodic with period 21, as forced by the
index formula `((pitch+shift) mod 21 + 21) mod 21`. -/
theorem note_to_key_raw_periodic :
    note_to_key_raw 21 = note_to_key_raw 0 ∧
    note_to_key_raw (-1) = note_to_key_raw 20 ∧
    ∀ n : ℤ, note_to_key_raw (n + 21) = note_to_key_raw n := by
  refine ⟨by decide, by decide, ?_⟩
  intro n
  show all_keys.getD (((n + 21).tmod 21 + 21).tmod 21).toNat "" =
    all_keys.getD ((n.tmod 21 + 21).tmod 21).toNat ""
  have h : ((n + 21).tmod 21 + 21).tmod 21 = (n.tmod 21 + 21).tmod 21 := by
    rw [tmod_add_cancel (n + 21) 21 (by norm_num), tmod_add_cancel n 21 (by norm_num)]
    have h1 : n + 21 = n + 21 * 1 := by ring
    rw [h1, Int.add_mul_emod_self_left]
  rw [h]

/-! ## Claim C6: the TransposeOnly mapping formula -/

/-- Counterexample to C6 as stated: at pitch 60 with shift 0 the code's
TransposeOnly mapping lands in the middle octave row (key "a"), while the
claimed formula puts row `clamp(floor((60-60)/12), 0, 2) = 0`, the low row
(key "z"). -/
theorem note_to_key_transpose_claim_false :
    note_to_key_transpose 60 0 = "a" ∧ claimed_transpose_key 60 0 = "z" ∧
    note_to_key_transpose 60 0 ≠ claimed_transpose_key 60 0 := by
  refine ⟨by decide, by decide, by decide⟩

/-- C6 (amended): `note_to_key_transpose` returns the key at column
`floor(semitone*7/12)` with `semitone = (pitch+shift-root) mod 12`, in the
octave row `clamp(1 + tdiv(pitch+shift-root, 12), 0, 2)` (division truncated
toward zero), i.e. it coincides with `corrected_transpose_key`. -/
theorem note_to_key_transpose_eq_corrected (note transpose : ℤ) :
    note_to_key_transpose note transpose = corrected_transpose_key note transpose := by
  have hm : (0 : ℤ) < 12 := by norm_num
  have hsem : ((note + transpose - ROOT_NOTE).tmod 12 + 12).tmod 12 =
      (note + transpose - ROOT_NOTE) % 12 := tmod_add_cancel _ 12 hm
  have hs0 : (0 : ℤ) ≤ (note + transpose - ROOT_NOTE) % 12 :=
    Int.emod_nonneg _ (by norm_num)
  have hcol : (((note + transpose - ROOT_NOTE) % 12) * 7).tdiv 12 =
      ((note + transpose - ROOT_NOTE) % 12) * 7 / 12 :=
    Int.tdiv_eq_ediv (by positivity) (by norm_num)
  unfold note_to_key_transpose corrected_transpose_key
  simp only [hsem, hcol]
  have hrow : min (max (1 + (note + transpose - ROOT_NOTE).tdiv 12) 0) 2 = 0 ∨
      min (max (1 + (note + transpose - ROOT_NOTE).tdiv 12) 0) 2 = 1 ∨
      min (max (1 + (note + transpose - ROOT_NOTE).tdiv 12) 0) 2 = 2 := by omega
  rcases hrow with h | h | h <;> rw [h] <;> rfl

/-! ## Claim C2: the transpose heuristic on the scale run 60,62,64,65,67 -/

set_option maxRecDepth 40000 in
/-- Counterexample to C2 as stated: on the NoteOn pitches 60,62,64,65,67 the
heuristic returns -12, not 0 (shifting a whole octave down also scores 0, and
the scan from -12 upward with strict improvement keeps the first optimum). -/
theorem detect_best_transpose_not_zero :
    detect_best_transpose scaleRunEvents = -12 ∧ detect_best_transpose scaleRunEvents ≠ 0 := by
  refine ⟨by decide, by decide⟩

set_option maxRecDepth 40000 in
/-- C2 (amended): on the scale run the heuristic returns -12; -12 attains
score 0, and score 0 is globally minimal (every candidate scores ≥ 0), so the
result is a minimal-score shift — but the tie at score 0 is broken in favor
of -12, the first optimum encountered scanning from -12 upward. -/
theorem detect_best_transpose_scale_run :
    detect_best_transpose scaleRunEvents = -12 ∧
    transposeScore scaleRunEvents (-12) = 0 ∧
    transposeScore scaleRunEvents 0 = 0 ∧
    ∀ i : Fin 25, 0 ≤ transposeScore scaleRunEvents ((i : ℤ) - 12) := by
  refine ⟨by decide, by decide, by decide, by decide⟩

/-! ## Claim C3: the effect of stop_playback on the transport state -/

/-- Counterexample to C3 as stated: from a prior state whose seek offset is 5,
`stop_playback` zeroes the current position but leaves the seek offset at 5. -/
theorem stop_playback_claim_false :
    ¬ ((stop_playback ⟨true, false, false, 0, 0, 3, 7, none, true, none, 5⟩).current_position = 0 ∧
       (stop_playback ⟨true, false, false, 0, 0, 3, 7, none, true, none, 5⟩).seek_offset = 0) := by
  decide

/-- C3 (amended): after `stop_playback` the current position is 0 for every
prior state, but the seek offset keeps its prior value (it is not reset);
the playing and paused flags are cleared. -/
theorem stop_playback_resets_position (st : AppStateModel) :
    (stop_playback st).current_position = 0 ∧
    (stop_playback st).seek_offset = st.seek_offset ∧
    (stop_playback st).is_playing = false ∧
    (stop_playback st).is_paused = false :=
  ⟨rfl, rfl, rfl, rfl⟩

/-! ## Claim C8: load failure leaves the transport state untouched -/

/-- C8: if the loader fails, the state-level `load_midi` returns exactly that
error and leaves every state field unchanged — in particular total duration,
current file and the loaded score keep their previous values. -/
theorem state_load_midi_error (loader : String → Except String MidiData)
    (st : AppStateModel) (path : String) (e : String)
    (h : loader path = Except.error e) :
    state_load_midi loader st path = (Except.error e, st) ∧
    (state_load_midi loader st path).2.total_duration = st.total_duration ∧
    (state_load_midi loader st path).2.current_file = st.current_file ∧
    (state_load_midi loader st path).2.midi_data = st.midi_data := by
  simp [state_load_midi, h]

/-- Witness for C8 at a concrete always-failing loader and concrete state. -/
theorem state_load_midi_error_witness :
    state_load_midi (fun _ => Except.error "bad header") ⟨false, false, false, 0, 0, 0, 9, some "old.mid", false, none, 0⟩ "song.mid" =
      (Except.error "bad header", ⟨false, false, false, 0, 0, 0, 9, some "old.mid", false, none, 0⟩) ∧
    (state_load_midi (fun _ => Except.error "bad header") ⟨false, false, false, 0, 0, 0, 9, some "old.mid", false, none, 0⟩ "song.mid").2.total_duration = (9 : ℚ) ∧
    (state_load_midi (fun _ => Except.error "bad header") ⟨false, false, false, 0, 0, 0, 9, some "old.mid", false, none, 0⟩ "song.mid").2.current_file = some "old.mid" ∧
    (state_load_midi (fun _ => Except.error "bad header") ⟨false, false, false, 0, 0, 0, 9, some "old.mid", false, none, 0⟩ "song.mid").2.midi_data = none := by
  exact state_load_midi_error (fun _ => Except.error "bad header") _ "song.mid" "bad header" rfl

/-! ## Claim C4: monotonicity of the tick-to-millisecond conversion -/

/-- `ticks_to_ms_aux` never drops below its accumulator when the resolution
and all tempi are non-negative. -/
theorem ticks_to_ms_aux_ge (tpq : ℚ) (htpq : 0 ≤ tpq) :
    ∀ (changes : List (ℕ × ℚ)) (last : ℕ) (cur acc : ℚ) (ticks : ℕ),
    (∀ p ∈ changes, 0 ≤ p.2) → 0 ≤ cur →
    acc ≤ ticks_to_ms_aux tpq changes last cur acc ticks := by
  intro changes
  induction changes with
  | nil =>
    intro last cur acc ticks _ hcur
    have h : 0 ≤ ((ticks - last : ℕ) : ℚ) / tpq * cur / 1000 :=
      div_nonneg (mul_nonneg (div_nonneg (Nat.cast_nonneg _) htpq) hcur) (by norm_num)
    simp only [ticks_to_ms_aux]
    linarith
  | cons p rest ih =>
    obtain ⟨ct, nt⟩ := p
    intro last cur acc ticks hch hcur
    have h : 0 ≤ ((ticks - last : ℕ) : ℚ) / tpq * cur / 1000 :=
      div_nonneg (mul_nonneg (div_nonneg (Nat.cast_nonneg _) htpq) hcur) (by norm_num)
    have h2 : 0 ≤ ((ct - last : ℕ) : ℚ) / tpq * cur / 1000 :=
      div_nonneg (mul_nonneg (div_nonneg (Nat.cast_nonneg _) htpq) hcur) (by norm_num)
    simp only [ticks_to_ms_aux]
    by_cases hct : ct ≥ ticks
    · rw [if_pos hct]
      linarith
    · rw [if_neg hct]
      have hnt : 0 ≤ nt := hch (ct, nt) (List.mem_cons_self _ _)
      have hrest : ∀ p ∈ rest, 0 ≤ p.2 := fun p hp => hch p (List.mem_cons_of_mem _ hp)
      have := ih ct nt (acc + ((ct - last : ℕ) : ℚ) / tpq * cur / 1000) ticks hrest hnt
      linarith

/-- One division step of the conversion is monotone in the tick delta. -/
theorem seg_mono (tpq cur : ℚ) (htpq : 0 ≤ tpq) (hcur : 0 ≤ cur) {a b : ℚ} (hab : a ≤ b) :
    a / tpq * cur / 1000 ≤ b / tpq * cur / 1000 := by
  have h1 : a / tpq ≤ b / tpq := by
    rw [div_eq_mul_inv, div_eq_mul_inv]
    exact mul_le_mul_of_nonneg_right hab (inv_nonneg.mpr htpq)
  have h2 : a / tpq * cur ≤ b / tpq * cur := mul_le_mul_of_nonneg_right h1 hcur
  rw [div_eq_mul_inv (a / tpq * cur), div_eq_mul_inv (b / tpq * cur)]
  exact mul_le_mul_of_nonneg_right h2 (by norm_num)

/-- `ticks_to_ms_aux` is monotone in the target tick. -/
theorem ticks_to_ms_aux_mono (tpq : ℚ) (htpq : 0 ≤ tpq) :
    ∀ (changes : List (ℕ × ℚ)) (last : ℕ) (cur acc : ℚ) (t1 t2 : ℕ),
    t1 ≤ t2 → (∀ p ∈ changes, 0 ≤ p.2) → 0 ≤ cur →
    ticks_to_ms_aux tpq changes last cur acc t1 ≤ ticks_to_ms_aux tpq changes last cur acc t2 := by
  intro changes
  induction changes with
  | nil =>
    intro last cur acc t1 t2 h12 _ hcur
    simp only [ticks_to_ms_aux]
    have hd : ((t1 - last : ℕ) : ℚ) ≤ ((t2 - last : ℕ) : ℚ) := by
      exact_mod_cast Nat.sub_le_sub_right h12 last
    have := seg_mono tpq cur htpq hcur hd
    linarith
  | cons p rest ih =>
    obtain ⟨ct, nt⟩ := p
    intro last cur acc t1 t2 h12 hch hcur
    have hnt : 0 ≤ nt := hch (ct, nt) (List.mem_cons_self _ _)
    have hrest : ∀ p ∈ rest, 0 ≤ p.2 := fun p hp => hch p (List.mem_cons_of_mem _ hp)
    simp only [ticks_to_ms_aux]
    by_cases h2 : ct ≥ t2
    · rw [if_pos (le_trans h12 h2), if_pos h2]
      have hd : ((t1 - last : ℕ) : ℚ) ≤ ((t2 - last : ℕ) : ℚ) := by
        exact_mod_cast Nat.sub_le_sub_right h12 last
      have := seg_mono tpq cur htpq hcur hd
      linarith
    · rw [if_neg h2]
      by_cases h1 : ct ≥ t1
      · rw [if_pos h1]
        have hd : ((t1 - last : ℕ) : ℚ) ≤ ((ct - last : ℕ) : ℚ) := by
          exact_mod_cast Nat.sub_le_sub_right h1 last
        have hstep := seg_mono tpq cur htpq hcur hd
        have hge := ticks_to_ms_aux_ge tpq htpq rest ct nt
          (acc + ((ct - last : ℕ) : ℚ) / tpq * cur / 1000) t2 hrest hnt
        linarith
      · rw [if_neg h1]
        exact ih ct nt (acc + ((ct - last : ℕ) : ℚ) / tpq * cur / 1000) t1 t2 h12 hrest hnt

/-- C4: the tick-to-millisecond conversion is monotone non-decreasing: for a
tempo map sorted ascending by tick with non-negative tempo values, a positive
resolution, and ticks `t1 ≤ t2`, `ticks_to_ms t1 ≤ ticks_to_ms t2`. -/
theorem ticks_to_ms_monotone (tempo_changes : List (ℕ × ℚ)) (tpq : ℚ)
    (hsorted : List.Chain' (fun p q => p.1 ≤ q.1) tempo_changes)
    (htempos : ∀ p ∈ tempo_changes, 0 ≤ p.2) (htpq : 0 < tpq)
    (t1 t2 : ℕ) (h12 : t1 ≤ t2) :
    ticks_to_ms tempo_changes tpq t1 ≤ ticks_to_ms tempo_changes tpq t2 := by
  have h := ticks_to_ms_aux_mono tpq (le_of_lt htpq) tempo_changes 0 500000 0 t1 t2 h12
    htempos (by norm_num)
  unfold ticks_to_ms ratToU64
  exact Int.toNat_le_toNat (Int.floor_le_floor h)

/-- Witness for C4 on the concrete tempo map [(10, 600000)] with resolution
480 and ticks 5 ≤ 20. -/
theorem ticks_to_ms_monotone_witness :
    List.Chain' (fun p q : ℕ × ℚ => p.1 ≤ q.1) [(10, 600000)] ∧
    (∀ p ∈ [((10 : ℕ), (600000 : ℚ))], 0 ≤ p.2) ∧ (0 : ℚ) < 480 ∧ (5 : ℕ) ≤ 20 ∧
    ticks_to_ms [(10, 600000)] 480 5 ≤ ticks_to_ms [(10, 600000)] 480 20 := by
  refine ⟨List.chain'_singleton _, ?_, by norm_num, by norm_num, ?_⟩
  · intro p hp
    simp only [List.mem_singleton] at hp
    subst hp
    norm_num
  · refine ticks_to_ms_monotone [(10, 600000)] 480 (List.chain'_singleton _) ?_ (by norm_num) 5 20 (by norm_num)
    intro p hp
    simp only [List.mem_singleton] at hp
    subst hp
    norm_num

/-! ## Claim C5: shape of the loader output -/

/-- Per-track shape of the loader second pass: when every raw event is a note
message, each produces exactly one timed event. -/
theorem trackEvents_shape (f : ℕ → ℕ) :
    ∀ (l : List RawTrackEvent) (t : ℕ),
    (∀ e ∈ l, isNoteOnPos e = true ∨ isNoteOffMsg e = true) →
    (trackEvents f t l).length = l.countP isNoteOnPos + l.countP isNoteOffMsg := by
  intro l
  induction l with
  | nil => intro t _; simp [trackEvents]
  | cons e rest ih =>
    intro t h
    have he := h e (List.mem_cons_self _ _)
    have hrest : ∀ x ∈ rest, isNoteOnPos x = true ∨ isNoteOffMsg x = true :=
      fun x hx => h x (List.mem_cons_of_mem _ hx)
    obtain ⟨d, k⟩ := e
    cases k with
    | midiNoteOn key vel =>
      have hv : 0 < vel := by
        rcases he with h1 | h1
        · simpa [isNoteOnPos] using h1
        · simp [isNoteOffMsg] at h1
      simp only [trackEvents, midiEventOf, if_pos hv, List.length_cons]
      rw [ih (t + d) hrest]
      simp [List.countP_cons, isNoteOnPos, isNoteOffMsg, hv]
      omega
    | midiNoteOff key =>
      simp only [trackEvents, midiEventOf, List.length_cons]
      rw [ih (t + d) hrest]
      simp [List.countP_cons, isNoteOnPos, isNoteOffMsg]
      omega
    | metaTempo q =>
      exfalso
      simp [isNoteOnPos, isNoteOffMsg] at he
    | otherEvent =>
      exfalso
      simp [isNoteOnPos, isNoteOffMsg] at he

/-- Sum of a pointwise sum of two maps splits. -/
theorem sum_map_add {α : Type _} (f g : α → ℕ) :
    ∀ l : List α, (l.map (fun x => f x + g x)).sum = (l.map f).sum + (l.map g).sum := by
  intro l
  induction l with
  | nil => simp
  | cons a l ih =>
    simp only [List.map_cons, List.sum_cons, ih]
    omega

/-- C5: for an input timeline of N matched NoteOn(velocity>0)/NoteOff pairs,
the loader produces exactly 2N events, sorted ascending by `time_ms`; and a
NoteOn with velocity 0 is reclassified as a NoteOff event. -/
theorem load_midi_pairs (tracks : List (List RawTrackEvent)) (tpq : ℚ) (N : ℕ)
    (hkinds : ∀ tr ∈ tracks, ∀ e ∈ tr, isNoteOnPos e = true ∨ isNoteOffMsg e = true)
    (hOn : (tracks.map (fun tr => tr.countP isNoteOnPos)).sum = N)
    (hOff : (tracks.map (fun tr => tr.countP isNoteOffMsg)).sum = N) :
    (load_midi_events tracks tpq).length = 2 * N ∧
    List.Sorted (fun a b => a.time_ms ≤ b.time_ms) (load_midi_events tracks tpq) ∧
    (∀ t k, midiEventOf t (RawKind.midiNoteOn k 0) = some ⟨t, EventType.NoteOff, k⟩) := by
  refine ⟨?_, ?_, fun t k => rfl⟩
  · show (List.mergeSort
      ((tracks.map (trackEvents (ticks_to_ms (collect_tempo_changes tracks) tpq) 0)).flatten)
      (fun a b => decide (a.time_ms ≤ b.time_ms))).length = 2 * N
    rw [List.length_mergeSort, List.length_flatten, List.map_map]
    have hmap : tracks.map
        (List.length ∘ trackEvents (ticks_to_ms (collect_tempo_changes tracks) tpq) 0) =
        tracks.map (fun tr => tr.countP isNoteOnPos + tr.countP isNoteOffMsg) := by
      apply List.map_congr_left
      intro tr htr
      exact trackEvents_shape _ tr 0 (hkinds tr htr)
    rw [hmap, sum_map_add, hOn, hOff]
    omega
  · show List.Sorted (fun a b => a.time_ms ≤ b.time_ms) (List.mergeSort
      ((tracks.map (trackEvents (ticks_to_ms (collect_tempo_changes tracks) tpq) 0)).flatten)
      (fun a b => decide (a.time_ms ≤ b.time_ms)))
    have hs := @List.sorted_mergeSort TimedEvent (fun a b => decide (a.time_ms ≤ b.time_ms))
      (by intro a b c hab hbc; simp only [decide_eq_true_eq] at hab hbc ⊢; omega)
      (by intro a b; simp only [Bool.or_eq_true, decide_eq_true_eq]; omega)
      ((tracks.map (trackEvents (ticks_to_ms (collect_tempo_changes tracks) tpq) 0)).flatten)
    exact hs.imp (fun hab => by simpa using hab)

/-- Witness for C5 on a one-track input with one matched pair. -/
theorem load_midi_pairs_witness :
    (∀ tr ∈ pairTracks, ∀ e ∈ tr, isNoteOnPos e = true ∨ isNoteOffMsg e = true) ∧
    (pairTracks.map (fun tr => tr.countP isNoteOnPos)).sum = 1 ∧
    (pairTracks.map (fun tr => tr.countP isNoteOffMsg)).sum = 1 ∧
    (load_midi_events pairTracks 480).length = 2 * 1 ∧
    List.Sorted (fun a b : TimedEvent => a.time_ms ≤ b.time_ms) (load_midi_events pairTracks 480) := by
  refine ⟨by decide, by decide, by decide, ?_, ?_⟩
  · exact (load_midi_pairs pairTracks 480 1 (by decide) (by decide) (by decide)).1
  · exact (load_midi_pairs pairTracks 480 1 (by decide) (by decide) (by decide)).2.1

/-! ## Claim C1: the key reference-counting invariant of the playback pass -/

/-- Unfolding of `stepEvent` on a NoteOn event. -/
theorem stepEvent_noteOn (m : NoteMode) (tr sh : ℤ) (st : PlayState) (t note : ℕ) :
    stepEvent m tr sh st ⟨t, EventType.NoteOn, note⟩ =
      (⟨fun n => if n = note then some (selectKey m tr sh note) else st.note_to_pressed_key n,
        fun k => if k = selectKey m tr sh note
          then some ((st.key_active_count (selectKey m tr sh note)).getD 0 + 1)
          else st.key_active_count k⟩,
       if (st.key_active_count (selectKey m tr sh note)).getD 0 = 0
         then [KeyAction.keyDown (selectKey m tr sh note)] else []) := rfl

/-- Unfolding of `stepEvent` on a NoteOff event: the computed mapper key is
discarded; only the remembered key from `note_to_pressed_key` is used. -/
theorem stepEvent_noteOff (m : NoteMode) (tr sh : ℤ) (st : PlayState) (t note : ℕ) :
    stepEvent m tr sh st ⟨t, EventType.NoteOff, note⟩ =
      match st.note_to_pressed_key note with
      | none => (st, [])
      | some pressed_key =>
          match st.key_active_count pressed_key with
          | none =>
              (⟨fun n => if n = note then none else st.note_to_pressed_key n,
                st.key_active_count⟩, [])
          | some count =>
              if 0 < count then
                (⟨fun n => if n = note then none else st.note_to_pressed_key n,
                  fun k => if k = pressed_key then some (count - 1) else st.key_active_count k⟩,
                 if count - 1 = 0 then [KeyAction.keyUp pressed_key] else [])
              else
                (⟨fun n => if n = note then none else st.note_to_pressed_key n,
                  st.key_active_count⟩, []) := rfl

/-- Processing one event preserves the reference-count invariant. -/
theorem stepEvent_KeyInv (m : NoteMode) (tr sh : ℤ) (st : PlayState) (e : TimedEvent)
    (pressed : String → Bool) (hinv : KeyInv st pressed) :
    KeyInv (stepEvent m tr sh st e).1 (applyActions pressed (stepEvent m tr sh st e).2) := by
  obtain ⟨t, ty, note⟩ := e
  cases ty with
  | NoteOn =>
    rw [stepEvent_noteOn]
    by_cases hc : (st.key_active_count (selectKey m tr sh note)).getD 0 = 0
    · rw [if_pos hc]
      intro k
      by_cases hk : k = selectKey m tr sh note
      · subst hk
        simp only [applyActions, List.foldl_cons, List.foldl_nil, applyAction,
          eq_self_iff_true, if_true, hc, zero_add, Option.some.injEq, exists_eq_left']
        norm_num
      · simp only [applyActions, List.foldl_cons, List.foldl_nil, applyAction, hk, if_false]
        exact hinv k
    · rw [if_neg hc]
      intro k
      by_cases hk : k = selectKey m tr sh note
      · subst hk
        rcases hkc : st.key_active_count (selectKey m tr sh note) with _ | c
        · rw [hkc] at hc
          simp at hc
        · rw [hkc] at hc
          simp only [Option.getD_some] at hc
          have hold := hinv (selectKey m tr sh note)
          rw [hkc] at hold
          simp only [Option.some.injEq, exists_eq_left'] at hold
          simp only [applyActions, List.foldl_nil, eq_self_iff_true, if_true, hkc,
            Option.getD_some, Option.some.injEq, exists_eq_left']
          rw [hold]
          omega
      · simp only [applyActions, List.foldl_nil, hk, if_false]
        exact hinv k
  | NoteOff =>
    rw [stepEvent_noteOff]
    rcases hnp : st.note_to_pressed_key note with _ | pk
    · simp only [hnp]
      exact hinv
    · simp only [hnp]
      rcases hkc : st.key_active_count pk with _ | c
      · simp only [hkc]
        exact hinv
      · simp only [hkc]
        by_cases hpos : 0 < c
        · rw [if_pos hpos]
          by_cases h1 : c - 1 = 0
          · rw [if_pos h1]
            intro k
            by_cases hk : k = pk
            · subst hk
              simp only [applyActions, List.foldl_cons, List.foldl_nil, applyAction,
                eq_self_iff_true, if_true, Option.some.injEq, exists_eq_left']
              constructor
              · intro hfalse
                exact absurd hfalse (by simp)
              · intro hpos2
                exact absurd hpos2 (by omega)
            · simp only [applyActions, List.foldl_cons, List.foldl_nil, applyAction, hk,
                if_false]
              exact hinv k
          · rw [if_neg h1]
            intro k
            by_cases hk : k = pk
            · subst hk
              simp only [applyActions, List.foldl_nil, eq_self_iff_true, if_true,
                Option.some.injEq, exists_eq_left']
              constructor
              · intro _
                omega
              · intro _
                exact (hinv _).mpr ⟨c, hkc, hpos⟩
            · simp only [applyActions, List.foldl_nil, hk, if_false]
              exact hinv k
        · rw [if_neg hpos]
          exact hinv

/-- Unfolding of `playEvents` on a cons cell. -/
theorem playEvents_cons (oracle : ℕ → NoteMode × ℤ) (transpose : ℤ) (offset idx : ℕ)
    (st : PlayState) (e : TimedEvent) (rest : List TimedEvent) :
    playEvents oracle transpose offset idx st (e :: rest) =
      if e.time_ms < offset then playEvents oracle transpose offset idx st rest
      else
        ((playEvents oracle transpose offset (idx + 1)
            (stepEvent (oracle idx).1 transpose ((oracle idx).2 * 12) st e).1 rest).1,
         (stepEvent (oracle idx).1 transpose ((oracle idx).2 * 12) st e).2 ++
           (playEvents oracle transpose offset (idx + 1)
             (stepEvent (oracle idx).1 transpose ((oracle idx).2 * 12) st e).1 rest).2) := rfl

/-- A whole pass (from any starting point) preserves the reference-count
invariant; since every prefix of a pass is itself a pass over the prefix
list, this is the claimed at-every-instant invariant. -/
theorem playEvents_KeyInv (oracle : ℕ → NoteMode × ℤ) (transpose : ℤ) (offset : ℕ) :
    ∀ (events : List TimedEvent) (idx : ℕ) (st : PlayState) (pressed : String → Bool),
    KeyInv st pressed →
    KeyInv (playEvents oracle transpose offset idx st events).1
      (applyActions pressed (playEvents oracle transpose offset idx st events).2) := by
  intro events
  induction events with
  | nil =>
    intro idx st pressed hinv
    exact hinv
  | cons e rest ih =>
    intro idx st pressed hinv
    rw [playEvents_cons]
    by_cases h : e.time_ms < offset
    · rw [if_pos h]
      exact ih idx st pressed hinv
    · rw [if_neg h]
      have hstep := stepEvent_KeyInv (oracle idx).1 transpose ((oracle idx).2 * 12) st e
        pressed hinv
      have hrec := ih (idx + 1) (stepEvent (oracle idx).1 transpose ((oracle idx).2 * 12) st e).1
        (applyActions pressed (stepEvent (oracle idx).1 transpose ((oracle idx).2 * 12) st e).2)
        hstep
      simpa [applyActions, List.foldl_append] using hrec

/-- C1: during one playback pass, after any processed prefix a physical key
has had keyDown issued without a matching keyUp iff its reference count in
`key_active_count` is positive (for any live mode/shift schedule); a NoteOff
is processed identically under any current mode/transpose/shift — it
decrements exactly the remembered key of its paired NoteOn. -/
theorem play_midi_key_refcount :
    (∀ (oracle : ℕ → NoteMode × ℤ) (transpose : ℤ) (offset_ms idx : ℕ) (st : PlayState)
       (pressed : String → Bool) (events : List TimedEvent),
       KeyInv st pressed →
       KeyInv (playEvents oracle transpose offset_ms idx st events).1
         (applyActions pressed (playEvents oracle transpose offset_ms idx st events).2)) ∧
    (∀ (m m2 : NoteMode) (tr tr2 sh sh2 : ℤ) (st : PlayState) (e : TimedEvent),
       e.event_type = EventType.NoteOff →
       stepEvent m tr sh st e = stepEvent m2 tr2 sh2 st e) ∧
    (∀ (m : NoteMode) (tr sh : ℤ) (st : PlayState) (e : TimedEvent) (pk : String) (c : ℤ),
       e.event_type = EventType.NoteOff →
       st.note_to_pressed_key e.note = some pk →
       st.key_active_count pk = some c → 0 < c →
       (stepEvent m tr sh st e).1.key_active_count pk = some (c - 1)) := by
  refine ⟨?_, ?_, ?_⟩
  · intro oracle transpose offset idx st pressed events hinv
    exact playEvents_KeyInv oracle transpose offset events idx st pressed hinv
  · intro m m2 tr tr2 sh sh2 st e h
    obtain ⟨t, ty, note⟩ := e
    cases ty with
    | NoteOn => simp at h
    | NoteOff => rw [stepEvent_noteOff, stepEvent_noteOff]
  · intro m tr sh st e pk c h hnp hkc hc
    obtain ⟨t, ty, note⟩ := e
    cases ty with
    | NoteOn => simp at h
    | NoteOff =>
      rw [stepEvent_noteOff]
      simp only at hnp
      simp [hnp, hkc, hc]

/-- Witness for C1: the invariant holds after a concrete one-event pass
started from the empty state and an all-released keyboard. -/
theorem play_midi_key_refcount_witness :
    KeyInv (playEvents (fun _ => (NoteMode.Closest, 0)) 0 0 0 initPlayState
        [⟨0, EventType.NoteOn, 60⟩]).1
      (applyActions (fun _ => false)
        (playEvents (fun _ => (NoteMode.Closest, 0)) 0 0 0 initPlayState
          [⟨0, EventType.NoteOn, 60⟩]).2) :=
  play_midi_key_refcount.1 (fun _ => (NoteMode.Closest, 0)) 0 0 0 initPlayState
    (fun _ => false) [⟨0, EventType.NoteOn, 60⟩]
    (by intro k; simp [initPlayState])

/-! ## Claim C7: events before the seek offset are skipped -/

/-- A pass over an event list equals the pass over the list with every event
before the offset filtered out: skipped events contribute no key action and
no state change. -/
theorem playEvents_filter_offset (oracle : ℕ → NoteMode × ℤ) (transpose : ℤ) (offset : ℕ) :
    ∀ (events : List TimedEvent) (idx : ℕ) (st : PlayState),
    playEvents oracle transpose offset idx st events =
      playEvents oracle transpose offset idx st
        (events.filter (fun e => decide (offset ≤ e.time_ms))) := by
  intro events
  induction events with
  | nil => intro idx st; rfl
  | cons e rest ih =>
    intro idx st
    rw [playEvents_cons, List.filter_cons]
    by_cases h : e.time_ms < offset
    · rw [if_pos h]
      have hd : decide (offset ≤ e.time_ms) = false := by
        simp only [decide_eq_false_iff_not]
        omega
      simp only [hd, Bool.false_eq_true, if_false]
      exact ih idx st
    · rw [if_neg h]
      have hd : decide (offset ≤ e.time_ms) = true := by
        simp only [decide_eq_true_eq]
        omega
      simp only [hd, if_true]
      rw [playEvents_cons, if_neg h]
      rw [ih (idx + 1) (stepEvent (oracle idx).1 transpose ((oracle idx).2 * 12) st e).1]

/-- Counterexample to C7 as stated: with seek position S = 1/2000 s, the
event at 0 ms has `time_ms` strictly less than S*1000 = 0.5, yet the pass
(whose u64 offset truncates to 0) processes it and issues a key action. -/
theorem playEvents_claim_false :
    (0 : ℚ) < (1 / 2000 : ℚ) * 1000 ∧
    (playEvents (fun _ => (NoteMode.Closest, 0)) 0 (ratToU64 ((1 / 2000 : ℚ) * 1000)) 0
        initPlayState [⟨0, EventType.NoteOn, 60⟩]).2 ≠ [] := by
  have h0 : ratToU64 ((1 / 2000 : ℚ) * 1000) = 0 := by
    have h12 : ((1 / 2000 : ℚ) * 1000) = 1 / 2 := by norm_num
    rw [ratToU64, h12]
    norm_num [Int.floor_eq_zero_iff, Set.mem_Ico]
  refine ⟨by norm_num, ?_⟩
  rw [h0]
  decide

/-- C7 (amended): a pass started at seek position S skips exactly the events
with `time_ms` below the truncated offset `⌊S*1000⌋` (no key action, no state
change for them); when S*1000 is an integer this is precisely
`time_ms < S*1000`. -/
theorem playEvents_skips_before_offset (S : ℚ) (hS : 0 ≤ S)
    (oracle : ℕ → NoteMode × ℤ) (transpose : ℤ) (idx : ℕ) (st : PlayState)
    (events : List TimedEvent) :
    playEvents oracle transpose (ratToU64 (S * 1000)) idx st events =
      playEvents oracle transpose (ratToU64 (S * 1000)) idx st
        (events.filter (fun e => decide (ratToU64 (S * 1000) ≤ e.time_ms))) :=
  playEvents_filter_offset oracle transpose (ratToU64 (S * 1000)) events idx st

/-- Witness for C7 at S = 1/2 s on a concrete two-event list. -/
theorem playEvents_skips_before_offset_witness :
    (0 : ℚ) ≤ 1 / 2 ∧
    playEvents (fun _ => (NoteMode.Raw, 0)) 0 (ratToU64 ((1 / 2 : ℚ) * 1000)) 0 initPlayState
        [⟨0, EventType.NoteOn, 60⟩, ⟨700, EventType.NoteOff, 60⟩] =
      playEvents (fun _ => (NoteMode.Raw, 0)) 0 (ratToU64 ((1 / 2 : ℚ) * 1000)) 0 initPlayState
        (([⟨0, EventType.NoteOn, 60⟩, ⟨700, EventType.NoteOff, 60⟩] : List TimedEvent).filter
          (fun e => decide (ratToU64 ((1 / 2 : ℚ) * 1000) ≤ e.time_ms))) :=
  ⟨by norm_num,
   playEvents_skips_before_offset (1 / 2) (by norm_num) (fun _ => (NoteMode.Raw, 0)) 0 0
     initPlayState [⟨0, EventType.NoteOn, 60⟩, ⟨700, EventType.NoteOff, 60⟩]⟩

end WWM
